import Mathlib

/-!
Verification development for the PuMA effective-property homogenization core.

The repository snapshot contains only glue (CI definitions, a tutorial
notebook, a CMake stub); the computational core that the tutorial exercises
(`pumapy`) is not part of the snapshot.  Following the specification, the
definitions below are a shallow embedding of that core, reconstructed from
the spec's component contracts: Voxel Workspace, Property Map, Orientation
Estimator, Discretization Engine, Linear Solver and Homogenization Driver.
Each definition's doc comment records what it models.
-/

/-- Voxel position: a coordinate for each of the three axes. -/
abbrev Pos := Fin 3 → ℕ

/-- Modelled from the spec: the Voxel Workspace, a 3D grid of scalar
intensity / label values with dimensions `(Nx, Ny, Nz)` and a physical
voxel length.  (`Workspace` in `pumapy`, not present in the snapshot.) -/
structure Workspace where
  dims : Fin 3 → ℕ
  voxelLength : ℚ
  matrix : Pos → ℤ

/-- The finite set of voxel positions of a workspace. -/
def Workspace.voxels (ws : Workspace) : Finset Pos :=
  Fintype.piFinset fun j => Finset.range (ws.dims j)

/-- Modelled from the spec / notebook: `binarize(threshold)` — every voxel
value greater than or equal to the threshold becomes 1, every other voxel
becomes 0; dimensions and voxel length are untouched.  (The notebook
documents "All values >= 90 are set to 1, and all values <90 are set to 0"
for `binarize(90)`; the implementation is not in the snapshot.) -/
def Workspace.binarize (ws : Workspace) (threshold : ℤ) : Workspace :=
  { ws with matrix := fun p => if threshold ≤ ws.matrix p then 1 else 0 }

/-- Modelled from the spec: error taxonomy — `ConfigurationError` (invalid
material range, unresolved voxel value), `DimensionError` (shape mismatch). -/
inductive SimError
  | configurationError
  | dimensionError
deriving DecidableEq, Repr

/-- Modelled from the spec: `ConvergenceError` is non-fatal and reported as
a status code alongside the best-available field, so it is a solver status
rather than an exception. -/
inductive SolverStatus
  | ok
  | convergenceError
deriving DecidableEq, Repr

/-- One registered material of an isotropic conductivity map: an inclusive
grayscale value-range and a scalar conductivity. -/
structure MatRange where
  lo : ℤ
  hi : ℤ
  k : ℚ
deriving DecidableEq, Repr

/-- Modelled from the spec: the Property Map in its isotropic form — an
ordered list of (value-range, scalar conductivity) entries
(`IsotropicConductivityMap` in the tutorial). -/
structure IsotropicConductivityMap where
  entries : List MatRange
deriving DecidableEq, Repr

/-- Two inclusive integer ranges overlap when they share at least one value. -/
def rangesOverlap (lo hi lo₂ hi₂ : ℤ) : Bool :=
  decide (lo ≤ hi₂) && decide (lo₂ ≤ hi)

/-- Modelled from the spec: `addMaterial(range, scalarConductivity)` fails
with `ConfigurationError` if the range overlaps a previously registered
range or if the conductivity is non-positive; otherwise the entry is
appended to the map. -/
def IsotropicConductivityMap.add_material (m : IsotropicConductivityMap)
    (range : ℤ × ℤ) (k : ℚ) : Except SimError IsotropicConductivityMap :=
  if m.entries.any (fun e => rangesOverlap e.lo e.hi range.1 range.2) || decide (k ≤ 0) then
    .error .configurationError
  else
    .ok ⟨m.entries ++ [⟨range.1, range.2, k⟩]⟩

/-- Modelled from the spec: Property Map lookup — resolve a voxel value to
the scalar conductivity of the first entry whose range contains it. -/
def IsotropicConductivityMap.lookup (m : IsotropicConductivityMap) (v : ℤ) : Option ℚ :=
  (m.entries.find? fun e => decide (e.lo ≤ v) && decide (v ≤ e.hi)).map MatRange.k

/-- A 3x3 conductivity tensor, stored entrywise. -/
abbrev Tensor3 := Fin 3 → Fin 3 → ℚ

/-- The scalar conductivity `k` as a tensor: `k` times the identity. -/
def scalarTensor (k : ℚ) : Tensor3 := fun i m => if i = m then k else 0

/-- Modelled from the spec: an anisotropic tensor for a phase with
conductivity `along` along the local orientation `u` and `cross` across it:
the rotation of `diag(along, cross, cross)` into the frame whose first axis
is `u`, i.e. `cross·I + (along - cross)·u uᵀ`. -/
def orientedTensor (along cross : ℚ) (u : Fin 3 → ℚ) : Tensor3 :=
  fun i m => cross * (if i = m then 1 else 0) + (along - cross) * (u i * u m)

/-- Modelled from the spec: one entry of an anisotropic conductivity map —
either a locally isotropic phase or a phase oriented by the orientation
field with along/cross conductivities. -/
inductive AnisoEntry
  | isotropic (lo hi : ℤ) (k : ℚ)
  | toOrient (lo hi : ℤ) (along cross : ℚ)
deriving DecidableEq, Repr

/-- Lower bound of the value-range of an anisotropic map entry. -/
def AnisoEntry.lo : AnisoEntry → ℤ
  | .isotropic lo _ _ => lo
  | .toOrient lo _ _ _ => lo

/-- Upper bound of the value-range of an anisotropic map entry. -/
def AnisoEntry.hi : AnisoEntry → ℤ
  | .isotropic _ hi _ => hi
  | .toOrient _ hi _ _ => hi

/-- Modelled from the spec: the conductivity tensor contributed by an entry,
given the voxel's optional orientation; an oriented phase with no
orientation set degrades to the identity frame, `diag(along, cross, cross)`. -/
def AnisoEntry.tensorAt (e : AnisoEntry) (orient : Option (Fin 3 → ℚ)) : Tensor3 :=
  match e with
  | .isotropic _ _ k => scalarTensor k
  | .toOrient _ _ along cross =>
    match orient with
    | some u => orientedTensor along cross u
    | none => fun i m => if i = m then (if i = 0 then along else cross) else 0

/-- Modelled from the spec: the Property Map in its anisotropic form
(`AnisotropicConductivityMap` in the tutorial). -/
structure AnisotropicConductivityMap where
  entries : List AnisoEntry
deriving DecidableEq, Repr

/-- Modelled from the spec: `addIsotropicMaterial(range, k)` on an
anisotropic map — same overlap and positivity validation as `addMaterial`. -/
def AnisotropicConductivityMap.add_isotropic_material (m : AnisotropicConductivityMap)
    (range : ℤ × ℤ) (k : ℚ) : Except SimError AnisotropicConductivityMap :=
  if m.entries.any (fun e => rangesOverlap e.lo e.hi range.1 range.2) || decide (k ≤ 0) then
    .error .configurationError
  else
    .ok ⟨m.entries ++ [.isotropic range.1 range.2 k]⟩

/-- Modelled from the spec: `addMaterialToOrient(range, along, cross)` —
fails with `ConfigurationError` on overlap with a registered range or when
either conductivity component is non-positive. -/
def AnisotropicConductivityMap.add_material_to_orient (m : AnisotropicConductivityMap)
    (range : ℤ × ℤ) (along cross : ℚ) : Except SimError AnisotropicConductivityMap :=
  if m.entries.any (fun e => rangesOverlap e.lo e.hi range.1 range.2)
      || decide (along ≤ 0) || decide (cross ≤ 0) then
    .error .configurationError
  else
    .ok ⟨m.entries ++ [.toOrient range.1 range.2 along cross]⟩

/-- Modelled from the spec: anisotropic Property Map lookup — resolve a
voxel value, together with the voxel's optional orientation, to a 3x3
conductivity tensor. -/
def AnisotropicConductivityMap.lookupTensor (m : AnisotropicConductivityMap)
    (orient : Option (Fin 3 → ℚ)) (v : ℤ) : Option Tensor3 :=
  (m.entries.find? fun e => decide (e.lo ≤ v) && decide (v ≤ e.hi)).map
    (fun e => e.tensorAt orient)

/-- Result of a linear solve: the field reached, a convergence flag, and
the non-fatal status diagnostic. -/
structure SolveResult (α : Type) where
  field : α
  converged : Bool
  status : SolverStatus
deriving DecidableEq

/-- Modelled from the spec: the iterative Linear Solver.  The
conjugate-gradient-family update is modelled as a generic fixed-point step;
the solver stops as soon as the residual norm reaches the tolerance, and
when the iteration budget is exhausted without convergence it returns the
best-available (last) iterate with a `ConvergenceError` status and the
converged flag cleared. -/
def iterativeSolve {α : Type} (step : α → α) (resNorm : α → ℚ) (tol : ℚ) :
    ℕ → α → SolveResult α
  | 0, x =>
    if resNorm x ≤ tol then ⟨x, true, .ok⟩ else ⟨x, false, .convergenceError⟩
  | n + 1, x =>
    if resNorm x ≤ tol then ⟨x, true, .ok⟩
    else iterativeSolve step resNorm tol n (step x)

/-- The kind of face a voxel sees in a given direction: an interior face
towards a neighboring voxel, a periodic wrap-around face, a zero-flux
(symmetric mirror) face, or a fixed-value (Dirichlet) face. -/
inductive Face
  | interior (q : Pos)
  | wrap (q : Pos)
  | noflux
  | fixed
deriving DecidableEq

/-- Modelled from the spec: the named side boundary conditions applied on
the two non-simulation axes — periodic, symmetric or Dirichlet. -/
inductive SideBC
  | periodic
  | symmetric
  | dirichlet
deriving DecidableEq, Repr

/-- The face of voxel `p` in the positive `j` direction.  Along the
simulation axis `d` the domain is wrapped periodically (the unit
macroscopic gradient is imposed through the flux terms); on the side axes
the face follows the side boundary condition. -/
def plusFace (ws : Workspace) (d : Fin 3) (bc : SideBC) (j : Fin 3) (p : Pos) : Face :=
  if p j + 1 < ws.dims j then .interior (Function.update p j (p j + 1))
  else if j = d then .wrap (Function.update p j 0)
  else
    match bc with
    | .periodic => .wrap (Function.update p j 0)
    | .symmetric => .noflux
    | .dirichlet => .fixed

/-- The face of voxel `p` in the negative `j` direction. -/
def minusFace (ws : Workspace) (d : Fin 3) (bc : SideBC) (j : Fin 3) (p : Pos) : Face :=
  if 0 < p j then .interior (Function.update p j (p j - 1))
  else if j = d then .wrap (Function.update p j (ws.dims j - 1))
  else
    match bc with
    | .periodic => .wrap (Function.update p j (ws.dims j - 1))
    | .symmetric => .noflux
    | .dirichlet => .fixed

/-- The imposed unit macroscopic potential gradient along axis `d`. -/
def unitGrad (d : Fin 3) : Fin 3 → ℚ := fun j => if j = d then 1 else 0

/-- Modelled from the spec: the magnitude of the imposed gradient — a unit
potential gradient is imposed, so the magnitude is 1. -/
def gradMagnitude : ℚ := 1

/-- Harmonic average of two face-adjacent conductivities, used by the
finite-volume scheme to enforce flux continuity across a voxel face. -/
def harmonicMean (a b : ℚ) : ℚ := if a + b = 0 then 0 else 2 * a * b / (a + b)

/-- Arithmetic average, used for the off-diagonal (cross) tensor entries at
a face of the multi-point flux approximation. -/
def arithmeticMean (a b : ℚ) : ℚ := (a + b) / 2

/-- Modelled from the spec: finite-volume face flux of the isotropic
7-point scheme.  The flux through a face in direction `j` combines the
fluctuation difference with the imposed unit macroscopic gradient; a
symmetric face carries no flux and a Dirichlet face uses a zero ghost
fluctuation. -/
def isoFaceFlux (ws : Workspace) (kf : Pos → ℚ) (d : Fin 3) (t : Pos → ℚ)
    (j : Fin 3) (p : Pos) : Face → ℚ
  | .interior q => -(harmonicMean (kf p) (kf q)) * ((t q - t p) / ws.voxelLength + unitGrad d j)
  | .wrap q => -(harmonicMean (kf p) (kf q)) * ((t q - t p) / ws.voxelLength + unitGrad d j)
  | .noflux => 0
  | .fixed => -(kf p) * ((0 - t p) / ws.voxelLength + unitGrad d j)

/-- Modelled from the spec: the residual of the isotropic finite-volume
discretization at a voxel — the net outflow of flux through its six faces,
which vanishes at the steady state. -/
def isoResidual (ws : Workspace) (kf : Pos → ℚ) (d : Fin 3) (bc : SideBC)
    (t : Pos → ℚ) (p : Pos) : ℚ :=
  ∑ j : Fin 3,
    (isoFaceFlux ws kf d t j p (plusFace ws d bc j p)
      - isoFaceFlux ws kf d t j p (minusFace ws d bc j p))

/-- Central-difference gradient component of the fluctuation field at a
voxel, degrading to one-sided differences at no-flux or Dirichlet faces. -/
def fluctGrad (ws : Workspace) (d : Fin 3) (bc : SideBC) (t : Pos → ℚ)
    (i : Fin 3) (p : Pos) : ℚ :=
  match plusFace ws d bc i p, minusFace ws d bc i p with
  | .interior q, .interior r => (t q - t r) / (2 * ws.voxelLength)
  | .interior q, .wrap r => (t q - t r) / (2 * ws.voxelLength)
  | .wrap q, .interior r => (t q - t r) / (2 * ws.voxelLength)
  | .wrap q, .wrap r => (t q - t r) / (2 * ws.voxelLength)
  | .interior q, _ => (t q - t p) / ws.voxelLength
  | .wrap q, _ => (t q - t p) / ws.voxelLength
  | _, .interior r => (t p - t r) / ws.voxelLength
  | _, .wrap r => (t p - t r) / ws.voxelLength
  | _, _ => 0

/-- The total discrete potential gradient at a voxel: the imposed unit
macroscopic gradient plus the gradient of the fluctuation field. -/
def totalGrad (ws : Workspace) (d : Fin 3) (bc : SideBC) (t : Pos → ℚ)
    (i : Fin 3) (p : Pos) : ℚ :=
  unitGrad d i + fluctGrad ws d bc t i p

/-- Modelled from the spec: per-voxel heat flux of the isotropic solve,
reported with the conventional sign so that a positive conductivity yields
a positive along-gradient flux. -/
def isoVoxelFlux (ws : Workspace) (kf : Pos → ℚ) (d : Fin 3) (bc : SideBC)
    (t : Pos → ℚ) (p : Pos) (i : Fin 3) : ℚ :=
  kf p * totalGrad ws d bc t i p

/-- Modelled from the spec: face flux of the anisotropic multi-point flux
approximation.  The normal part harmonically averages the diagonal tensor
entries of the two voxels; the tangential (cross) part arithmetically
averages the off-diagonal entries and multiplies them with the face's
tangential total gradient. -/
def anisoFaceFlux (ws : Workspace) (Kf : Pos → Tensor3) (d : Fin 3) (bc : SideBC)
    (t : Pos → ℚ) (j : Fin 3) (p : Pos) : Face → ℚ
  | .interior q =>
    -(harmonicMean (Kf p j j) (Kf q j j)) * ((t q - t p) / ws.voxelLength + unitGrad d j)
      - ∑ i ∈ Finset.univ.erase j,
          arithmeticMean (Kf p j i) (Kf q j i)
            * arithmeticMean (totalGrad ws d bc t i p) (totalGrad ws d bc t i q)
  | .wrap q =>
    -(harmonicMean (Kf p j j) (Kf q j j)) * ((t q - t p) / ws.voxelLength + unitGrad d j)
      - ∑ i ∈ Finset.univ.erase j,
          arithmeticMean (Kf p j i) (Kf q j i)
            * arithmeticMean (totalGrad ws d bc t i p) (totalGrad ws d bc t i q)
  | .noflux => 0
  | .fixed =>
    -(Kf p j j) * ((0 - t p) / ws.voxelLength + unitGrad d j)
      - ∑ i ∈ Finset.univ.erase j, Kf p j i * totalGrad ws d bc t i p

/-- Modelled from the spec: the residual of the anisotropic (MPFA)
finite-volume discretization at a voxel. -/
def anisoResidual (ws : Workspace) (Kf : Pos → Tensor3) (d : Fin 3) (bc : SideBC)
    (t : Pos → ℚ) (p : Pos) : ℚ :=
  ∑ j : Fin 3,
    (anisoFaceFlux ws Kf d bc t j p (plusFace ws d bc j p)
      - anisoFaceFlux ws Kf d bc t j p (minusFace ws d bc j p))

/-- Modelled from the spec: per-voxel heat flux of the anisotropic solve,
the local tensor applied to the total gradient. -/
def anisoVoxelFlux (ws : Workspace) (Kf : Pos → Tensor3) (d : Fin 3) (bc : SideBC)
    (t : Pos → ℚ) (p : Pos) (i : Fin 3) : ℚ :=
  ∑ m : Fin 3, Kf p i m * totalGrad ws d bc t m p

/-- The residual 1-norm over the workspace, used as the solver's
convergence measure. -/
def residualNorm (ws : Workspace) (r : (Pos → ℚ) → Pos → ℚ) (t : Pos → ℚ) : ℚ :=
  ∑ p ∈ ws.voxels, |r t p|

/-- One fixed-point update of the iterative solver for a residual operator. -/
def relaxStep (r : (Pos → ℚ) → Pos → ℚ) (t : Pos → ℚ) : Pos → ℚ :=
  fun p => t p - r t p

/-- Modelled from the spec: the volume-averaged flux vector of a solved
field, whose components divided by the imposed gradient magnitude form one
row of the effective conductivity tensor. -/
def volumeAveragedFlux (ws : Workspace) (q : Pos → Fin 3 → ℚ) : Fin 3 → ℚ :=
  fun i => (∑ p ∈ ws.voxels, q p i) / (ws.voxels.card : ℚ)

/-- Modelled from the spec: discretization method selector — finite volume
(`fv`) or finite element (`fe`). -/
inductive Method
  | fv
  | fe
deriving DecidableEq, Repr

/-- Result of one homogenization run: a row of the effective conductivity
tensor, the steady-state temperature (fluctuation) field, the per-voxel
heat flux, and the solver diagnostics. -/
structure CondResult where
  row : Fin 3 → ℚ
  T : Pos → ℚ
  q : Pos → Fin 3 → ℚ
  converged : Bool
  status : SolverStatus

/-- The per-voxel scalar conductivity resolved through the isotropic map. -/
def isoKf (ws : Workspace) (cmap : IsotropicConductivityMap) : Pos → ℚ :=
  fun p => (cmap.lookup (ws.matrix p)).getD 0

/-- The per-voxel conductivity tensor resolved through the anisotropic map
and the orientation field. -/
def anisoKfD (ws : Workspace) (cmap : AnisotropicConductivityMap)
    (ofield : Pos → Option (Fin 3 → ℚ)) : Pos → Tensor3 :=
  fun p => (cmap.lookupTensor (ofield p) (ws.matrix p)).getD (fun _ _ => 0)

/-- Modelled from the spec: the effective side boundary condition — the
finite-element method only supports periodic boundary conditions, so in
`fe` mode the side boundary-condition argument is ignored. -/
def effBC : Method → SideBC → SideBC
  | .fv, bc => bc
  | .fe, _ => .periodic

/-- The linear solve of the isotropic driver: iterate the finite-volume
residual operator from a zero initial fluctuation field. -/
def isoSolve (ws : Workspace) (cmap : IsotropicConductivityMap) (d : Fin 3)
    (bc : SideBC) (tol : ℚ) (maxiter : ℕ) (method : Method) : SolveResult (Pos → ℚ) :=
  iterativeSolve (relaxStep (isoResidual ws (isoKf ws cmap) d (effBC method bc)))
    (residualNorm ws (isoResidual ws (isoKf ws cmap) d (effBC method bc)))
    tol maxiter fun _ => 0

/-- The linear solve of the anisotropic (MPFA) driver. -/
def anisoSolve (ws : Workspace) (cmap : AnisotropicConductivityMap)
    (ofield : Pos → Option (Fin 3 → ℚ)) (d : Fin 3) (bc : SideBC) (tol : ℚ)
    (maxiter : ℕ) (method : Method) : SolveResult (Pos → ℚ) :=
  iterativeSolve
    (relaxStep (anisoResidual ws (anisoKfD ws cmap ofield) d (effBC method bc)))
    (residualNorm ws (anisoResidual ws (anisoKfD ws cmap ofield) d (effBC method bc)))
    tol maxiter fun _ => 0

/-- Modelled from the spec: the Homogenization Driver for an isotropic map
(`compute_thermal_conductivity` in the tutorial).  It first validates that
every voxel value resolves in the property map (failing fast with
`ConfigurationError` before any solver work), assembles the finite-volume
residual operator (through `effBC`: the `fe` method supports only periodic
side boundary conditions), solves iteratively from a zero initial field,
and forms the tensor row as the volume-averaged flux of the resulting
field divided by the imposed gradient magnitude. -/
def compute_thermal_conductivity (ws : Workspace) (cmap : IsotropicConductivityMap)
    (d : Fin 3) (bc : SideBC) (tol : ℚ) (maxiter : ℕ) (method : Method) :
    Except SimError CondResult :=
  if ∀ p ∈ ws.voxels, (cmap.lookup (ws.matrix p)).isSome then
    .ok ⟨fun i => volumeAveragedFlux ws
          (fun p i2 => isoVoxelFlux ws (isoKf ws cmap) d (effBC method bc)
            (isoSolve ws cmap d bc tol maxiter method).field p i2) i / gradMagnitude,
      (isoSolve ws cmap d bc tol maxiter method).field,
      fun p i2 => isoVoxelFlux ws (isoKf ws cmap) d (effBC method bc)
        (isoSolve ws cmap d bc tol maxiter method).field p i2,
      (isoSolve ws cmap d bc tol maxiter method).converged,
      (isoSolve ws cmap d bc tol maxiter method).status⟩
  else .error .configurationError

/-- Modelled from the spec: the Homogenization Driver for an anisotropic
map and an optional per-voxel orientation field (the anisotropic MPFA
solver is selected automatically when an anisotropic map is fed). -/
def compute_thermal_conductivity_aniso (ws : Workspace)
    (cmap : AnisotropicConductivityMap) (ofield : Pos → Option (Fin 3 → ℚ))
    (d : Fin 3) (bc : SideBC) (tol : ℚ) (maxiter : ℕ) (method : Method) :
    Except SimError CondResult :=
  if ∀ p ∈ ws.voxels, (cmap.lookupTensor (ofield p) (ws.matrix p)).isSome then
    .ok ⟨fun i => volumeAveragedFlux ws
          (fun p i2 => anisoVoxelFlux ws (anisoKfD ws cmap ofield) d (effBC method bc)
            (anisoSolve ws cmap ofield d bc tol maxiter method).field p i2) i / gradMagnitude,
      (anisoSolve ws cmap ofield d bc tol maxiter method).field,
      fun p i2 => anisoVoxelFlux ws (anisoKfD ws cmap ofield) d (effBC method bc)
        (anisoSolve ws cmap ofield d bc tol maxiter method).field p i2,
      (anisoSolve ws cmap ofield d bc tol maxiter method).converged,
      (anisoSolve ws cmap ofield d bc tol maxiter method).status⟩
  else .error .configurationError

/-- Modelled from the spec: running the driver once per axis (x, y, z)
assembles the complete 3x3 effective conductivity tensor, one row per
simulation direction. -/
def effectiveConductivityTensor (ws : Workspace) (cmap : IsotropicConductivityMap)
    (bc : SideBC) (tol : ℚ) (maxiter : ℕ) (method : Method) :
    Except SimError (Fin 3 → Fin 3 → ℚ) :=
  match compute_thermal_conductivity ws cmap 0 bc tol maxiter method,
      compute_thermal_conductivity ws cmap 1 bc tol maxiter method,
      compute_thermal_conductivity ws cmap 2 bc tol maxiter method with
  | .ok rx, .ok ry, .ok rz =>
    .ok fun dIdx => if dIdx = 0 then rx.row else if dIdx = 1 then ry.row else rz.row
  | .error e, _, _ => .error e
  | .ok _, .error e, _ => .error e
  | .ok _, .ok _, .error e => .error e

/-- A voxel is inside the cutoff when it lies in the workspace and its
value falls in the inclusive cutoff range of the phase of interest. -/
def inCutoff (ws : Workspace) (cutoff : ℤ × ℤ) (p : Pos) : Prop :=
  p ∈ ws.voxels ∧ cutoff.1 ≤ ws.matrix p ∧ ws.matrix p ≤ cutoff.2

instance (ws : Workspace) (cutoff : ℤ × ℤ) (p : Pos) : Decidable (inCutoff ws cutoff p) :=
  inferInstanceAs (Decidable (_ ∧ _))

/-- The voxel intensity restricted to the cutoff phase: grayscale value on
cutoff voxels, zero elsewhere. -/
def maskedGray (ws : Workspace) (cutoff : ℤ × ℤ) (p : Pos) : ℝ :=
  if inCutoff ws cutoff p then (ws.matrix p : ℝ) else 0

/-- The neighbor one step along axis `i` in the positive direction. -/
def stepPlus (p : Pos) (i : Fin 3) : Pos := Function.update p i (p i + 1)

/-- The neighbor one step along axis `i` in the negative direction
(clamped at the domain edge). -/
def stepMinus (p : Pos) (i : Fin 3) : Pos := Function.update p i (p i - 1)

/-- Modelled from the spec: the image gradient field restricted to cutoff
voxels — central difference of the masked intensity, kept only at voxels
of the phase of interest. -/
noncomputable def cutoffGrad (ws : Workspace) (cutoff : ℤ × ℤ) (i : Fin 3) (p : Pos) : ℝ :=
  if inCutoff ws cutoff p then
    (maskedGray ws cutoff (stepPlus p i) - maskedGray ws cutoff (stepMinus p i))
      / (2 * (ws.voxelLength : ℝ))
  else 0

/-- Gaussian smoothing weight at scale `s` between two voxel positions. -/
noncomputable def gaussianWeight (s : ℝ) (p q : Pos) : ℝ :=
  Real.exp (-(∑ i : Fin 3, ((p i : ℝ) - (q i : ℝ)) ^ 2) / (2 * s ^ 2))

/-- Modelled from the spec: the second-moment (structure) tensor of the
gradient field, Gaussian-smoothed at the noise scale `sigma`. -/
noncomputable def structureTensorRaw (ws : Workspace) (cutoff : ℤ × ℤ) (sigma : ℝ)
    (q : Pos) : Matrix (Fin 3) (Fin 3) ℝ :=
  ∑ r ∈ ws.voxels, gaussianWeight sigma q r •
    Matrix.of fun i m => cutoffGrad ws cutoff i r * cutoffGrad ws cutoff m r

/-- Modelled from the spec: the structure tensor field smoothed again at
the integration scale `rho`. -/
noncomputable def smoothedStructureTensor (ws : Workspace) (cutoff : ℤ × ℤ)
    (sigma rho : ℝ) (p : Pos) : Matrix (Fin 3) (Fin 3) ℝ :=
  ∑ q ∈ ws.voxels, gaussianWeight rho p q • structureTensorRaw ws cutoff sigma q

/-- The structure tensor is symmetric (Hermitian over the reals), being a
weighted sum of outer products of gradients with themselves. -/
theorem smoothedStructureTensor_isHermitian (ws : Workspace) (cutoff : ℤ × ℤ)
    (sigma rho : ℝ) (p : Pos) :
    (smoothedStructureTensor ws cutoff sigma rho p).IsHermitian := by
  have h1 : ∀ (q : Pos) (i m : Fin 3),
      structureTensorRaw ws cutoff sigma q m i = structureTensorRaw ws cutoff sigma q i m := by
    intro q i m
    unfold structureTensorRaw
    simp only [Matrix.sum_apply, Matrix.smul_apply, Matrix.of_apply, smul_eq_mul]
    exact Finset.sum_congr rfl fun r _ => by ring
  apply Matrix.ext
  intro i m
  simp only [Matrix.conjTranspose_apply, star_trivial, smoothedStructureTensor,
    Matrix.sum_apply, Matrix.smul_apply, smul_eq_mul]
  exact Finset.sum_congr rfl fun q _ => by rw [h1 q i m]

/-- The index of the smallest of three eigenvalues (deterministic
tie-breaking towards the lower index). -/
noncomputable def minEigIdx (f : Fin 3 → ℝ) : Fin 3 :=
  if f 0 ≤ f 1 then (if f 0 ≤ f 2 then 0 else 2) else (if f 1 ≤ f 2 then 1 else 2)

/-- Modelled from the spec: the Orientation Estimator
(`compute_orientation_st` in the tutorial) — structure-tensor method: at a
voxel inside the cutoff it returns the unit eigenvector of the smallest
eigenvalue of the smoothed structure tensor (the direction of least
intensity variation, i.e. the local fiber axis); voxels outside the cutoff
keep no orientation. -/
noncomputable def compute_orientation_st (ws : Workspace) (cutoff : ℤ × ℤ)
    (sigma rho : ℝ) (p : Pos) : Option (EuclideanSpace ℝ (Fin 3)) :=
  if inCutoff ws cutoff p then
    let hA := smoothedStructureTensor_isHermitian ws cutoff sigma rho p
    some (hA.eigenvectorBasis (minEigIdx hA.eigenvalues))
  else none

instance {ε α : Type} [DecidableEq ε] [DecidableEq α] : DecidableEq (Except ε α) := fun a b =>
  match a, b with
  | .ok x, .ok y =>
    if h : x = y then .isTrue (by rw [h]) else .isFalse fun hc => h (Except.ok.inj hc)
  | .error x, .error y =>
    if h : x = y then .isTrue (by rw [h]) else .isFalse fun hc => h (Except.error.inj hc)
  | .ok _, .error _ => .isFalse fun hc => Except.noConfusion hc
  | .error _, .ok _ => .isFalse fun hc => Except.noConfusion hc

/-- The linear (fluctuation-only) part of the isotropic face flux: the
face flux with the imposed macroscopic gradient removed. -/
def isoLinFaceFlux (ws : Workspace) (kf : Pos → ℚ) (t : Pos → ℚ) (p : Pos) : Face → ℚ
  | .interior q => -(harmonicMean (kf p) (kf q)) * ((t q - t p) / ws.voxelLength)
  | .wrap q => -(harmonicMean (kf p) (kf q)) * ((t q - t p) / ws.voxelLength)
  | .noflux => 0
  | .fixed => -(kf p) * ((0 - t p) / ws.voxelLength)

/-- The pure linear operator of the periodic (finite-element mode) system,
acting on the fluctuation field alone. -/
def isoLinOperator (ws : Workspace) (kf : Pos → ℚ) (d : Fin 3) (t : Pos → ℚ) (p : Pos) : ℚ :=
  ∑ j : Fin 3,
    (isoLinFaceFlux ws kf t p (plusFace ws d .periodic j p)
      - isoLinFaceFlux ws kf t p (minusFace ws d .periodic j p))

/-- The face flux induced by the imposed unit macroscopic term alone. -/
def isoLoadFaceFlux (ws : Workspace) (kf : Pos → ℚ) (d : Fin 3) (j : Fin 3) (p : Pos) :
    Face → ℚ
  | .interior q => -(harmonicMean (kf p) (kf q)) * unitGrad d j
  | .wrap q => -(harmonicMean (kf p) (kf q)) * unitGrad d j
  | .noflux => 0
  | .fixed => -(kf p) * unitGrad d j

/-- Modelled from the spec: the load of the finite-element mode — the
prescribed macroscopic flux term assembled over the whole domain (not
boundary data), so the system solved is for the fluctuating field. -/
def macroscopicFluxLoad (ws : Workspace) (kf : Pos → ℚ) (d : Fin 3) (p : Pos) : ℚ :=
  ∑ j : Fin 3,
    (isoLoadFaceFlux ws kf d j p (plusFace ws d .periodic j p)
      - isoLoadFaceFlux ws kf d j p (minusFace ws d .periodic j p))

/-- The linear (fluctuation-only) part of the anisotropic face flux. -/
def anisoLinFaceFlux (ws : Workspace) (Kf : Pos → Tensor3) (d : Fin 3) (t : Pos → ℚ)
    (j : Fin 3) (p : Pos) : Face → ℚ
  | .interior q =>
    -(harmonicMean (Kf p j j) (Kf q j j)) * ((t q - t p) / ws.voxelLength)
      - ∑ i ∈ Finset.univ.erase j,
          arithmeticMean (Kf p j i) (Kf q j i)
            * arithmeticMean (fluctGrad ws d .periodic t i p) (fluctGrad ws d .periodic t i q)
  | .wrap q =>
    -(harmonicMean (Kf p j j) (Kf q j j)) * ((t q - t p) / ws.voxelLength)
      - ∑ i ∈ Finset.univ.erase j,
          arithmeticMean (Kf p j i) (Kf q j i)
            * arithmeticMean (fluctGrad ws d .periodic t i p) (fluctGrad ws d .periodic t i q)
  | .noflux => 0
  | .fixed =>
    -(Kf p j j) * ((0 - t p) / ws.voxelLength)
      - ∑ i ∈ Finset.univ.erase j, Kf p j i * fluctGrad ws d .periodic t i p

/-- The pure linear operator of the periodic anisotropic system. -/
def anisoLinOperator (ws : Workspace) (Kf : Pos → Tensor3) (d : Fin 3) (t : Pos → ℚ)
    (p : Pos) : ℚ :=
  ∑ j : Fin 3,
    (anisoLinFaceFlux ws Kf d t j p (plusFace ws d .periodic j p)
      - anisoLinFaceFlux ws Kf d t j p (minusFace ws d .periodic j p))

/-- The anisotropic face flux induced by the imposed unit macroscopic term. -/
def anisoLoadFaceFlux (ws : Workspace) (Kf : Pos → Tensor3) (d : Fin 3) (j : Fin 3)
    (p : Pos) : Face → ℚ
  | .interior q =>
    -(harmonicMean (Kf p j j) (Kf q j j)) * unitGrad d j
      - ∑ i ∈ Finset.univ.erase j, arithmeticMean (Kf p j i) (Kf q j i) * unitGrad d i
  | .wrap q =>
    -(harmonicMean (Kf p j j) (Kf q j j)) * unitGrad d j
      - ∑ i ∈ Finset.univ.erase j, arithmeticMean (Kf p j i) (Kf q j i) * unitGrad d i
  | .noflux => 0
  | .fixed =>
    -(Kf p j j) * unitGrad d j
      - ∑ i ∈ Finset.univ.erase j, Kf p j i * unitGrad d i

/-- The whole-domain prescribed macroscopic flux load of the anisotropic
periodic (finite-element mode) system. -/
def anisoMacroscopicFluxLoad (ws : Workspace) (Kf : Pos → Tensor3) (d : Fin 3)
    (p : Pos) : ℚ :=
  ∑ j : Fin 3,
    (anisoLoadFaceFlux ws Kf d j p (plusFace ws d .periodic j p)
      - anisoLoadFaceFlux ws Kf d j p (minusFace ws d .periodic j p))

/-- Consistency of a driver result: a field carrying the `ConvergenceError`
status diagnostic is never also flagged as converged. -/
def statusConsistent : Except SimError CondResult → Bool
  | .ok r => !(r.status == SolverStatus.convergenceError && r.converged)
  | .error _ => true

/-- When the initial residual already meets the tolerance, the solver
returns immediately with the converged flag set. -/
theorem iterativeSolve_of_le {α : Type} (step : α → α) (resNorm : α → ℚ) (tol : ℚ)
    (n : ℕ) (x : α) (h : resNorm x ≤ tol) :
    iterativeSolve step resNorm tol n x = ⟨x, true, .ok⟩ := by
  cases n <;> simp [iterativeSolve, h]

/-- When no iterate within the budget meets the tolerance, the solver
returns the last iterate, unconverged, with the `ConvergenceError` status. -/
theorem iterativeSolve_stuck {α : Type} (step : α → α) (resNorm : α → ℚ) (tol : ℚ) :
    ∀ (n : ℕ) (x : α), (∀ kIt, kIt ≤ n → tol < resNorm (step^[kIt] x)) →
      iterativeSolve step resNorm tol n x = ⟨step^[n] x, false, .convergenceError⟩ := by
  intro n
  induction n with
  | zero =>
    intro x h
    have h0 := h 0 (le_refl 0)
    rw [Function.iterate_zero_apply] at h0
    simp [iterativeSolve, not_le.mpr h0]
  | succ n ih =>
    intro x h
    have h0 := h 0 (Nat.zero_le _)
    rw [Function.iterate_zero_apply] at h0
    rw [iterativeSolve, if_neg (not_le.mpr h0)]
    rw [ih (step x) fun kIt hk => by
      rw [← Function.iterate_succ_apply]
      exact h (kIt + 1) (Nat.succ_le_succ hk)]
    rw [← Function.iterate_succ_apply]

/-- A solver result with the `ConvergenceError` status never carries the
converged flag. -/
theorem iterativeSolve_status {α : Type} (step : α → α) (resNorm : α → ℚ) (tol : ℚ) :
    ∀ (n : ℕ) (x : α), (iterativeSolve step resNorm tol n x).status = .convergenceError →
      (iterativeSolve step resNorm tol n x).converged = false := by
  intro n
  induction n with
  | zero =>
    intro x h
    by_cases hr : resNorm x ≤ tol
    · rw [iterativeSolve_of_le _ _ _ _ _ hr] at h
      exact absurd h (by simp)
    · simp [iterativeSolve, hr]
  | succ n ih =>
    intro x h
    by_cases hr : resNorm x ≤ tol
    · rw [iterativeSolve_of_le _ _ _ _ _ hr] at h
      exact absurd h (by simp)
    · rw [iterativeSolve, if_neg hr] at h ⊢
      exact ih _ h

/-- A driver result assembled from a solver run is status-consistent. -/
theorem statusConsistent_mk (row : Fin 3 → ℚ) (T : Pos → ℚ) (q : Pos → Fin 3 → ℚ)
    (step : (Pos → ℚ) → (Pos → ℚ)) (resNorm : (Pos → ℚ) → ℚ) (tol : ℚ) (n : ℕ)
    (x : Pos → ℚ) :
    statusConsistent (.ok ⟨row, T, q, (iterativeSolve step resNorm tol n x).converged,
      (iterativeSolve step resNorm tol n x).status⟩) = true := by
  simp only [statusConsistent]
  by_cases hs : (iterativeSolve step resNorm tol n x).status = SolverStatus.convergenceError
  · have hc := iterativeSolve_status step resNorm tol n x hs
    simp [hs, hc]
  · simp [hs]

/-- Every driver result is status-consistent: a `ConvergenceError` status
implies the converged flag is cleared. -/
theorem compute_statusConsistent (ws : Workspace) (cmap : IsotropicConductivityMap)
    (d : Fin 3) (bc : SideBC) (tol : ℚ) (maxiter : ℕ) (method : Method) :
    statusConsistent (compute_thermal_conductivity ws cmap d bc tol maxiter method) = true := by
  rw [compute_thermal_conductivity.eq_def]
  split
  · exact statusConsistent_mk _ _ _ _ _ _ _ _
  · rfl

/-- C6: for every solve in which the linear solver's iteration count
exceeds the maximum without reaching the tolerance, the result carries a
`ConvergenceError` status (a diagnostic, not an exception) together with
the best-available (last) iterate, the returned field is never flagged as
converged, and every driver result is status-consistent. -/
theorem solver_convergence_error_spec {α : Type} (step : α → α) (resNorm : α → ℚ)
    (tol : ℚ) (n : ℕ) (x : α) (ws : Workspace) (cmap : IsotropicConductivityMap)
    (d : Fin 3) (bc : SideBC) (maxiter : ℕ) (method : Method) :
    ((∀ kIt, kIt ≤ n → tol < resNorm (step^[kIt] x)) →
      iterativeSolve step resNorm tol n x = ⟨step^[n] x, false, .convergenceError⟩)
    ∧ ((iterativeSolve step resNorm tol n x).status = .convergenceError →
        (iterativeSolve step resNorm tol n x).converged = false)
    ∧ statusConsistent (compute_thermal_conductivity ws cmap d bc tol maxiter method) = true :=
  ⟨iterativeSolve_stuck step resNorm tol n x,
    iterativeSolve_status step resNorm tol n x,
    compute_statusConsistent ws cmap d bc tol maxiter method⟩

/-- Witness for C6 at a concrete stalled solve and a concrete driver run. -/
theorem solver_convergence_error_spec_witness :
    iterativeSolve id (fun _ : ℚ => 1) 0 2 0 = ⟨0, false, .convergenceError⟩ ∧
    statusConsistent (compute_thermal_conductivity ⟨fun _ => 1, 1, fun _ => 5⟩
      ⟨[⟨0, 255, 2⟩]⟩ 0 .periodic (-1) 1 .fv) = true := by
  constructor
  · have h := (solver_convergence_error_spec id (fun _ : ℚ => 1) 0 2 0
      ⟨fun _ => 1, 1, fun _ => 5⟩ ⟨[⟨0, 255, 2⟩]⟩ 0 .periodic 1 .fv).1
      (fun kIt _ => by norm_num)
    simpa using h
  · exact (solver_convergence_error_spec id (fun _ : ℚ => 1) (-1) 2 0
      ⟨fun _ => 1, 1, fun _ => 5⟩ ⟨[⟨0, 255, 2⟩]⟩ 0 .periodic 1 .fv).2.2

/-- C9: re-running the homogenization driver on an unchanged workspace and
property map with identical configuration is deterministic — the model is
a pure function of its inputs, so two successive runs produce identical
tensor output. -/
theorem driver_deterministic (ws : Workspace) (cmap : IsotropicConductivityMap)
    (amap : AnisotropicConductivityMap) (ofield : Pos → Option (Fin 3 → ℚ))
    (d : Fin 3) (bc : SideBC) (tol : ℚ) (maxiter : ℕ) (method : Method) :
    compute_thermal_conductivity ws cmap d bc tol maxiter method
      = compute_thermal_conductivity ws cmap d bc tol maxiter method
    ∧ compute_thermal_conductivity_aniso ws amap ofield d bc tol maxiter method
      = compute_thermal_conductivity_aniso ws amap ofield d bc tol maxiter method
    ∧ effectiveConductivityTensor ws cmap bc tol maxiter method
      = effectiveConductivityTensor ws cmap bc tol maxiter method :=
  ⟨rfl, rfl, rfl⟩

/-- C10: `binarize(t)` sets every voxel with value at least `t` to 1 and
every voxel with value below `t` to 0, leaving the dimensions and the
voxel length unchanged. -/
theorem binarize_spec (ws : Workspace) (t : ℤ) :
    (ws.binarize t).dims = ws.dims ∧ (ws.binarize t).voxelLength = ws.voxelLength ∧
      ∀ p : Pos, (t ≤ ws.matrix p → (ws.binarize t).matrix p = 1) ∧
        (ws.matrix p < t → (ws.binarize t).matrix p = 0) := by
  refine ⟨rfl, rfl, fun p => ⟨fun h => ?_, fun h => ?_⟩⟩
  · simp [Workspace.binarize, h]
  · simp [Workspace.binarize, not_le.mpr h]

/-- Witness for C10 on a segmented fiber example: 120 maps to 1 and 50
maps to 0 under threshold 90. -/
theorem binarize_spec_witness :
    ((Workspace.mk (fun _ => 1) 1 (fun _ => 120)).binarize 90).matrix (fun _ => 0) = 1 ∧
    ((Workspace.mk (fun _ => 1) 1 (fun _ => 50)).binarize 90).matrix (fun _ => 0) = 0 :=
  ⟨((binarize_spec (Workspace.mk (fun _ => 1) 1 (fun _ => 120)) 90).2.2 (fun _ => 0)).1
      (by decide),
    ((binarize_spec (Workspace.mk (fun _ => 1) 1 (fun _ => 50)) 90).2.2 (fun _ => 0)).2
      (by decide)⟩

/-- C4: a workspace containing a voxel whose value resolves in no
registered range makes the conductivity solve fail with
`ConfigurationError` before any solver work — the driver returns the error
and produces no field or tensor, for either property-map kind. -/
theorem unresolved_voxel_fails_fast (ws : Workspace) (cmap : IsotropicConductivityMap)
    (amap : AnisotropicConductivityMap) (ofield : Pos → Option (Fin 3 → ℚ))
    (d : Fin 3) (bc : SideBC) (tol : ℚ) (maxiter : ℕ) (method : Method) :
    ((∃ p ∈ ws.voxels, cmap.lookup (ws.matrix p) = none) →
      compute_thermal_conductivity ws cmap d bc tol maxiter method
        = .error .configurationError)
    ∧ ((∃ p ∈ ws.voxels, amap.lookupTensor (ofield p) (ws.matrix p) = none) →
      compute_thermal_conductivity_aniso ws amap ofield d bc tol maxiter method
        = .error .configurationError) := by
  constructor
  · rintro ⟨p, hp, hnone⟩
    rw [compute_thermal_conductivity.eq_def, if_neg]
    intro hall
    have hs := hall p hp
    rw [hnone] at hs
    simp at hs
  · rintro ⟨p, hp, hnone⟩
    rw [compute_thermal_conductivity_aniso.eq_def, if_neg]
    intro hall
    have hs := hall p hp
    rw [hnone] at hs
    simp at hs

/-- Witness for C4: a single-voxel workspace with grayscale value 300 and
a map registering only the range 0..255. -/
theorem unresolved_voxel_fails_fast_witness :
    compute_thermal_conductivity ⟨fun _ => 1, 1, fun _ => 300⟩
      ⟨[⟨0, 255, 1⟩]⟩ 0 .periodic 1 5 .fv = .error .configurationError ∧
    compute_thermal_conductivity_aniso ⟨fun _ => 1, 1, fun _ => 300⟩
      ⟨[.isotropic 0 255 1]⟩ (fun _ => none) 0 .periodic 1 5 .fv
      = .error .configurationError :=
  ⟨(unresolved_voxel_fails_fast ⟨fun _ => 1, 1, fun _ => 300⟩ ⟨[⟨0, 255, 1⟩]⟩
      ⟨[.isotropic 0 255 1]⟩ (fun _ => none) 0 .periodic 1 5 .fv).1
      ⟨fun _ => 0, by decide, by decide⟩,
    (unresolved_voxel_fails_fast ⟨fun _ => 1, 1, fun _ => 300⟩ ⟨[⟨0, 255, 1⟩]⟩
      ⟨[.isotropic 0 255 1]⟩ (fun _ => none) 0 .periodic 1 5 .fv).2
      ⟨fun _ => 0, by decide, by decide⟩⟩

/-- C5: registering a material via `add_material` (or the anisotropic
variants) fails with `ConfigurationError` exactly when the new value-range
overlaps a previously registered range or a supplied conductivity is
non-positive; otherwise the entry is appended to the map. -/
theorem add_material_validation (mi : IsotropicConductivityMap)
    (ma : AnisotropicConductivityMap) (lo hi : ℤ) (k along cross : ℚ) :
    (mi.add_material (lo, hi) k = .error .configurationError ↔
      (∃ e ∈ mi.entries, e.lo ≤ hi ∧ lo ≤ e.hi) ∨ k ≤ 0)
    ∧ (¬((∃ e ∈ mi.entries, e.lo ≤ hi ∧ lo ≤ e.hi) ∨ k ≤ 0) →
        mi.add_material (lo, hi) k = .ok ⟨mi.entries ++ [⟨lo, hi, k⟩]⟩)
    ∧ (ma.add_isotropic_material (lo, hi) k = .error .configurationError ↔
      (∃ e ∈ ma.entries, e.lo ≤ hi ∧ lo ≤ e.hi) ∨ k ≤ 0)
    ∧ (¬((∃ e ∈ ma.entries, e.lo ≤ hi ∧ lo ≤ e.hi) ∨ k ≤ 0) →
        ma.add_isotropic_material (lo, hi) k = .ok ⟨ma.entries ++ [.isotropic lo hi k]⟩)
    ∧ (ma.add_material_to_orient (lo, hi) along cross = .error .configurationError ↔
      (∃ e ∈ ma.entries, e.lo ≤ hi ∧ lo ≤ e.hi) ∨ along ≤ 0 ∨ cross ≤ 0)
    ∧ (¬((∃ e ∈ ma.entries, e.lo ≤ hi ∧ lo ≤ e.hi) ∨ along ≤ 0 ∨ cross ≤ 0) →
        ma.add_material_to_orient (lo, hi) along cross
          = .ok ⟨ma.entries ++ [.toOrient lo hi along cross]⟩) := by
  have hbi : (mi.entries.any (fun e => rangesOverlap e.lo e.hi lo hi) || decide (k ≤ 0)) = true
      ↔ ((∃ e ∈ mi.entries, e.lo ≤ hi ∧ lo ≤ e.hi) ∨ k ≤ 0) := by
    simp [List.any_eq_true, rangesOverlap]
  have hba : (ma.entries.any (fun e => rangesOverlap e.lo e.hi lo hi) || decide (k ≤ 0)) = true
      ↔ ((∃ e ∈ ma.entries, e.lo ≤ hi ∧ lo ≤ e.hi) ∨ k ≤ 0) := by
    simp [List.any_eq_true, rangesOverlap]
  have hbo : (ma.entries.any (fun e => rangesOverlap e.lo e.hi lo hi)
        || decide (along ≤ 0) || decide (cross ≤ 0)) = true
      ↔ ((∃ e ∈ ma.entries, e.lo ≤ hi ∧ lo ≤ e.hi) ∨ along ≤ 0 ∨ cross ≤ 0) := by
    simp [List.any_eq_true, rangesOverlap, or_assoc]
  refine ⟨?_, ?_, ?_, ?_, ?_, ?_⟩
  · by_cases h : (mi.entries.any (fun e => rangesOverlap e.lo e.hi lo hi)
        || decide (k ≤ 0)) = true
    · rw [IsotropicConductivityMap.add_material, if_pos h]
      exact iff_of_true rfl (hbi.mp h)
    · rw [IsotropicConductivityMap.add_material, if_neg h]
      exact iff_of_false (fun hcon => Except.noConfusion hcon) fun hr => h (hbi.mpr hr)
  · intro hn
    rw [IsotropicConductivityMap.add_material, if_neg fun hbt => hn (hbi.mp hbt)]
  · by_cases h : (ma.entries.any (fun e => rangesOverlap e.lo e.hi lo hi)
        || decide (k ≤ 0)) = true
    · rw [AnisotropicConductivityMap.add_isotropic_material, if_pos h]
      exact iff_of_true rfl (hba.mp h)
    · rw [AnisotropicConductivityMap.add_isotropic_material, if_neg h]
      exact iff_of_false (fun hcon => Except.noConfusion hcon) fun hr => h (hba.mpr hr)
  · intro hn
    rw [AnisotropicConductivityMap.add_isotropic_material, if_neg fun hbt => hn (hba.mp hbt)]
  · by_cases h : (ma.entries.any (fun e => rangesOverlap e.lo e.hi lo hi)
        || decide (along ≤ 0) || decide (cross ≤ 0)) = true
    · rw [AnisotropicConductivityMap.add_material_to_orient, if_pos h]
      exact iff_of_true rfl (hbo.mp h)
    · rw [AnisotropicConductivityMap.add_material_to_orient, if_neg h]
      exact iff_of_false (fun hcon => Except.noConfusion hcon) fun hr => h (hbo.mpr hr)
  · intro hn
    rw [AnisotropicConductivityMap.add_material_to_orient, if_neg fun hbt => hn (hbo.mp hbt)]

/-- Witness for C5: on concrete maps, a disjoint positive registration
succeeds and an overlapping registration fails. -/
theorem add_material_validation_witness :
    IsotropicConductivityMap.add_material ⟨[⟨0, 89, 1⟩]⟩ (90, 255) 12
      = .ok ⟨[⟨0, 89, 1⟩, ⟨90, 255, 12⟩]⟩ ∧
    IsotropicConductivityMap.add_material ⟨[⟨0, 89, 1⟩]⟩ (50, 255) 12
      = .error .configurationError ∧
    AnisotropicConductivityMap.add_material_to_orient ⟨[.isotropic 0 89 1]⟩ (90, 255) 12 7
      = .ok ⟨[.isotropic 0 89 1, .toOrient 90 255 12 7]⟩ :=
  ⟨(add_material_validation ⟨[⟨0, 89, 1⟩]⟩ ⟨[.isotropic 0 89 1]⟩ 90 255 12 12 7).2.1
      (by decide),
    (add_material_validation ⟨[⟨0, 89, 1⟩]⟩ ⟨[.isotropic 0 89 1]⟩ 50 255 12 12 7).1.mpr
      (Or.inl ⟨⟨0, 89, 1⟩, by decide, by decide⟩),
    (add_material_validation ⟨[⟨0, 89, 1⟩]⟩ ⟨[.isotropic 0 89 1]⟩ 90 255 12 12 7).2.2.2.2.2
      (by decide)⟩

/-- Splitting a face's tangential cross-term into its fluctuation part and
its imposed macroscopic part. -/
theorem sum_arith_split (s : Finset (Fin 3)) (A G fp fq : Fin 3 → ℚ) :
    ∑ i ∈ s, A i * arithmeticMean (G i + fp i) (G i + fq i)
      = ∑ i ∈ s, A i * arithmeticMean (fp i) (fq i) + ∑ i ∈ s, A i * G i := by
  rw [← Finset.sum_add_distrib]
  exact Finset.sum_congr rfl fun i _ => by unfold arithmeticMean; ring

/-- Splitting a one-sided tangential term into fluctuation and macroscopic
parts. -/
theorem sum_total_split (s : Finset (Fin 3)) (A G f : Fin 3 → ℚ) :
    ∑ i ∈ s, A i * (G i + f i) = ∑ i ∈ s, A i * f i + ∑ i ∈ s, A i * G i := by
  rw [← Finset.sum_add_distrib]
  exact Finset.sum_congr rfl fun i _ => by ring

/-- The periodic isotropic residual is affine in the fluctuation field:
linear operator plus the whole-domain macroscopic flux load. -/
theorem isoResidual_periodic_decomposition (ws : Workspace) (kf : Pos → ℚ) (d : Fin 3)
    (t : Pos → ℚ) (p : Pos) :
    isoResidual ws kf d .periodic t p
      = isoLinOperator ws kf d t p + macroscopicFluxLoad ws kf d p := by
  unfold isoResidual isoLinOperator macroscopicFluxLoad
  rw [← Finset.sum_add_distrib]
  refine Finset.sum_congr rfl fun j _ => ?_
  cases plusFace ws d .periodic j p <;> cases minusFace ws d .periodic j p <;>
    simp only [isoFaceFlux, isoLinFaceFlux, isoLoadFaceFlux] <;> ring

/-- The periodic anisotropic residual is affine in the fluctuation field:
linear operator plus the whole-domain macroscopic flux load. -/
theorem anisoResidual_periodic_decomposition (ws : Workspace) (Kf : Pos → Tensor3)
    (d : Fin 3) (t : Pos → ℚ) (p : Pos) :
    anisoResidual ws Kf d .periodic t p
      = anisoLinOperator ws Kf d t p + anisoMacroscopicFluxLoad ws Kf d p := by
  unfold anisoResidual anisoLinOperator anisoMacroscopicFluxLoad
  rw [← Finset.sum_add_distrib]
  refine Finset.sum_congr rfl fun j _ => ?_
  cases plusFace ws d .periodic j p <;> cases minusFace ws d .periodic j p <;>
    simp only [anisoFaceFlux, anisoLinFaceFlux, anisoLoadFaceFlux, totalGrad] <;>
    (repeat rw [sum_arith_split]) <;> (repeat rw [sum_total_split]) <;> ring

/-- C8: in finite-element mode the solve supports only periodic boundary
conditions — the side boundary-condition argument has no effect on either
driver's result — and the periodic system it solves is affine in the
fluctuating field, driven by the whole-domain prescribed macroscopic flux
load rather than a unit gradient imposed as boundary data. -/
theorem fe_periodic_flux_spec (ws : Workspace) (cmap : IsotropicConductivityMap)
    (amap : AnisotropicConductivityMap) (ofield : Pos → Option (Fin 3 → ℚ))
    (d : Fin 3) (bc bc₂ : SideBC) (tol : ℚ) (maxiter : ℕ)
    (kf : Pos → ℚ) (Kf : Pos → Tensor3) (t : Pos → ℚ) (p : Pos) :
    compute_thermal_conductivity ws cmap d bc tol maxiter .fe
      = compute_thermal_conductivity ws cmap d bc₂ tol maxiter .fe
    ∧ compute_thermal_conductivity_aniso ws amap ofield d bc tol maxiter .fe
      = compute_thermal_conductivity_aniso ws amap ofield d bc₂ tol maxiter .fe
    ∧ isoResidual ws kf d .periodic t p
      = isoLinOperator ws kf d t p + macroscopicFluxLoad ws kf d p
    ∧ anisoResidual ws Kf d .periodic t p
      = anisoLinOperator ws Kf d t p + anisoMacroscopicFluxLoad ws Kf d p :=
  ⟨rfl, rfl, isoResidual_periodic_decomposition ws kf d t p,
    anisoResidual_periodic_decomposition ws Kf d t p⟩

/-- C1: each driver run returns as tensor row the volume-averaged flux
vector of its converged field divided by the imposed gradient magnitude
(for either property-map kind), and the complete 3x3 tensor assembled by
running once per axis has as its `d`-th row exactly the result of the
independent single-direction call for `d`. -/
theorem driver_row_spec (ws : Workspace) (cmap : IsotropicConductivityMap)
    (amap : AnisotropicConductivityMap) (ofield : Pos → Option (Fin 3 → ℚ))
    (bc : SideBC) (tol : ℚ) (maxiter : ℕ) (method : Method) :
    (∀ d : Fin 3,
      (compute_thermal_conductivity ws cmap d bc tol maxiter method).map CondResult.row
        = (compute_thermal_conductivity ws cmap d bc tol maxiter method).map
            fun r => fun i => volumeAveragedFlux ws r.q i / gradMagnitude)
    ∧ (∀ d : Fin 3,
      (compute_thermal_conductivity_aniso ws amap ofield d bc tol maxiter method).map
          CondResult.row
        = (compute_thermal_conductivity_aniso ws amap ofield d bc tol maxiter method).map
            fun r => fun i => volumeAveragedFlux ws r.q i / gradMagnitude)
    ∧ (∀ M, effectiveConductivityTensor ws cmap bc tol maxiter method = .ok M →
        ∀ d : Fin 3,
          (compute_thermal_conductivity ws cmap d bc tol maxiter method).map CondResult.row
            = .ok (M d)) := by
  refine ⟨fun d => ?_, fun d => ?_, fun M hM d => ?_⟩
  · rw [compute_thermal_conductivity.eq_def]
    split <;> rfl
  · rw [compute_thermal_conductivity_aniso.eq_def]
    split <;> rfl
  · rw [effectiveConductivityTensor.eq_def] at hM
    split at hM
    · rename_i rx ry rz h0 h1 h2
      rw [Except.ok.injEq] at hM
      subst hM
      fin_cases d <;> simp [h0, h1, h2, Except.map]
    · exact absurd hM (by simp)
    · exact absurd hM (by simp)
    · exact absurd hM (by simp)

/-- Updating one coordinate to an in-range value keeps a position inside
the workspace. -/
theorem update_mem_voxels (ws : Workspace) (p : Pos) (j : Fin 3) (v : ℕ)
    (hp : p ∈ ws.voxels) (hv : v < ws.dims j) : Function.update p j v ∈ ws.voxels := by
  rw [Workspace.voxels, Fintype.mem_piFinset] at hp ⊢
  intro i
  rcases eq_or_ne i j with h | h
  · subst h
    simp [Function.update_same, Finset.mem_range, hv]
  · rw [Function.update_noteq h]
    exact hp i

/-- A voxel's coordinate along any axis is below the dimension. -/
theorem coord_lt_dims (ws : Workspace) (p : Pos) (j : Fin 3) (hp : p ∈ ws.voxels) :
    p j < ws.dims j := by
  rw [Workspace.voxels, Fintype.mem_piFinset] at hp
  simpa [Finset.mem_range] using hp j

/-- Along the simulation axis the positive face is always an interior or
wrap face towards another voxel of the workspace. -/
theorem plusFace_simAxis (ws : Workspace) (d : Fin 3) (bc : SideBC) (p : Pos)
    (hp : p ∈ ws.voxels) :
    ∃ q ∈ ws.voxels, plusFace ws d bc d p = .interior q ∨ plusFace ws d bc d p = .wrap q := by
  unfold plusFace
  by_cases h : p d + 1 < ws.dims d
  · exact ⟨_, update_mem_voxels ws p d _ hp h, by rw [if_pos h]; exact Or.inl rfl⟩
  · refine ⟨_, update_mem_voxels ws p d 0 hp ?_, by rw [if_neg h, if_pos rfl]; exact Or.inr rfl⟩
    have := coord_lt_dims ws p d hp
    omega

/-- Along the simulation axis the negative face is always an interior or
wrap face towards another voxel of the workspace. -/
theorem minusFace_simAxis (ws : Workspace) (d : Fin 3) (bc : SideBC) (p : Pos)
    (hp : p ∈ ws.voxels) :
    ∃ q ∈ ws.voxels, minusFace ws d bc d p = .interior q ∨ minusFace ws d bc d p = .wrap q := by
  unfold minusFace
  have hdim : 0 < ws.dims d := Nat.pos_of_ne_zero fun h0 => by
    have := coord_lt_dims ws p d hp
    omega
  by_cases h : 0 < p d
  · refine ⟨_, update_mem_voxels ws p d (p d - 1) hp ?_, by rw [if_pos h]; exact Or.inl rfl⟩
    have := coord_lt_dims ws p d hp
    omega
  · refine ⟨_, update_mem_voxels ws p d (ws.dims d - 1) hp (Nat.sub_lt hdim one_pos), ?_⟩
    rw [if_neg h, if_pos rfl]
    exact Or.inr rfl

/-- The harmonic average of equal conductivities is that conductivity. -/
theorem harmonicMean_self (k : ℚ) : harmonicMean k k = k := by
  unfold harmonicMean
  by_cases h : k + k = 0
  · have hk : k = 0 := by linarith
    simp [h, hk]
  · rw [if_neg h]
    have hk : k ≠ 0 := fun h0 => h (by rw [h0]; ring)
    field_simp
    ring

/-- On a side axis, every face flux of the zero fluctuation field vanishes
(the imposed gradient has no component there). -/
theorem isoFaceFlux_zero_side (ws : Workspace) (kf : Pos → ℚ) (d : Fin 3) (j : Fin 3)
    (hj : j ≠ d) (p : Pos) (f : Face) :
    isoFaceFlux ws kf d (fun _ => 0) j p f = 0 := by
  cases f <;> simp [isoFaceFlux, unitGrad, hj]

/-- On a homogeneous domain the residual of the zero fluctuation field
vanishes at every voxel: the imposed uniform gradient is already the
steady state. -/
theorem isoResidual_homog_zero (ws : Workspace) (kf : Pos → ℚ) (k : ℚ) (d : Fin 3)
    (bc : SideBC) (hkf : ∀ p ∈ ws.voxels, kf p = k) (p : Pos) (hp : p ∈ ws.voxels) :
    isoResidual ws kf d bc (fun _ => 0) p = 0 := by
  unfold isoResidual
  apply Finset.sum_eq_zero
  intro j _
  rcases eq_or_ne j d with hj | hj
  · subst hj
    obtain ⟨qP, hqP, hP⟩ := plusFace_simAxis ws j bc p hp
    obtain ⟨qM, hqM, hMf⟩ := minusFace_simAxis ws j bc p hp
    have hfluxP : isoFaceFlux ws kf j (fun _ => 0) j p (plusFace ws j bc j p) = -k := by
      rcases hP with h | h <;> rw [h] <;>
        simp [isoFaceFlux, hkf p hp, hkf qP hqP, harmonicMean_self, unitGrad]
    have hfluxM : isoFaceFlux ws kf j (fun _ => 0) j p (minusFace ws j bc j p) = -k := by
      rcases hMf with h | h <;> rw [h] <;>
        simp [isoFaceFlux, hkf p hp, hkf qM hqM, harmonicMean_self, unitGrad]
    rw [hfluxP, hfluxM]
    ring
  · rw [isoFaceFlux_zero_side ws kf d j hj p, isoFaceFlux_zero_side ws kf d j hj p]
    ring

/-- On a homogeneous domain the residual norm of the zero field is zero. -/
theorem residualNorm_homog_zero (ws : Workspace) (kf : Pos → ℚ) (k : ℚ) (d : Fin 3)
    (bc : SideBC) (hkf : ∀ p ∈ ws.voxels, kf p = k) :
    residualNorm ws (isoResidual ws kf d bc) (fun _ => 0) = 0 :=
  Finset.sum_eq_zero fun p hp => by
    rw [isoResidual_homog_zero ws kf k d bc hkf p hp, abs_zero]

/-- The discrete gradient of the zero fluctuation field vanishes. -/
theorem fluctGrad_zero (ws : Workspace) (d : Fin 3) (bc : SideBC) (i : Fin 3) (p : Pos) :
    fluctGrad ws d bc (fun _ => 0) i p = 0 := by
  unfold fluctGrad
  cases plusFace ws d bc i p <;> cases minusFace ws d bc i p <;> simp

/-- The number of voxels of a workspace with positive dimensions is
positive. -/
theorem voxels_card_pos (ws : Workspace) (hdims : ∀ j, 0 < ws.dims j) :
    0 < ws.voxels.card := by
  rw [Workspace.voxels, Fintype.card_piFinset]
  exact Finset.prod_pos fun i _ => by simpa using hdims i

/-- The volume average of a flux field that is constant over the voxels is
that constant. -/
theorem volumeAveragedFlux_const (ws : Workspace) (q : Pos → Fin 3 → ℚ) (c : Fin 3 → ℚ)
    (hdims : ∀ j, 0 < ws.dims j) (hq : ∀ p ∈ ws.voxels, ∀ i, q p i = c i) (i : Fin 3) :
    volumeAveragedFlux ws q i = c i := by
  unfold volumeAveragedFlux
  rw [Finset.sum_congr rfl fun p hp => hq p hp i, Finset.sum_const, nsmul_eq_mul]
  have hcard : (ws.voxels.card : ℚ) ≠ 0 :=
    Nat.cast_ne_zero.mpr (Nat.pos_iff_ne_zero.mp (voxels_card_pos ws hdims))
  exact mul_div_cancel_left₀ (c i) hcard

/-- On a homogeneous single-phase domain the imposed uniform gradient is
already the steady state: the driver converges immediately at the zero
fluctuation field and returns the tensor row `k · e_d`. -/
theorem compute_homogeneous (ws : Workspace) (cmap : IsotropicConductivityMap) (k : ℚ)
    (d : Fin 3) (bc : SideBC) (tol : ℚ) (maxiter : ℕ) (method : Method)
    (hdims : ∀ j, 0 < ws.dims j) (htol : 0 ≤ tol)
    (hom : ∀ p ∈ ws.voxels, cmap.lookup (ws.matrix p) = some k) :
    compute_thermal_conductivity ws cmap d bc tol maxiter method
      = .ok ⟨fun i => if i = d then k else 0, fun _ => 0,
          fun p i2 => isoVoxelFlux ws (isoKf ws cmap) d (effBC method bc) (fun _ => 0) p i2,
          true, .ok⟩ := by
  have hkf : ∀ p ∈ ws.voxels, isoKf ws cmap p = k := fun p hp => by
    rw [isoKf, hom p hp]
    rfl
  have hvalid : ∀ p ∈ ws.voxels, (cmap.lookup (ws.matrix p)).isSome := fun p hp => by
    rw [hom p hp]
    rfl
  have hsol : isoSolve ws cmap d bc tol maxiter method = ⟨fun _ => 0, true, .ok⟩ := by
    rw [isoSolve]
    apply iterativeSolve_of_le
    rw [residualNorm_homog_zero ws (isoKf ws cmap) k d (effBC method bc) hkf]
    exact htol
  have hq : ∀ p ∈ ws.voxels, ∀ i2 : Fin 3,
      isoVoxelFlux ws (isoKf ws cmap) d (effBC method bc) (fun _ => 0) p i2
        = k * unitGrad d i2 := by
    intro p hp i2
    rw [isoVoxelFlux, totalGrad, fluctGrad_zero, add_zero, hkf p hp]
  have hrow : (fun i => volumeAveragedFlux ws
        (fun p i2 => isoVoxelFlux ws (isoKf ws cmap) d (effBC method bc) (fun _ => 0) p i2)
          i / gradMagnitude)
      = fun i => if i = d then k else 0 := by
    funext i
    rw [volumeAveragedFlux_const ws _ _ hdims hq i, gradMagnitude, div_one, unitGrad]
    split <;> ring
  rw [compute_thermal_conductivity.eq_def, if_pos hvalid, hsol]
  show Except.ok (CondResult.mk (fun i => volumeAveragedFlux ws
      (fun p i2 => isoVoxelFlux ws (isoKf ws cmap) d (effBC method bc) (fun _ => 0) p i2)
        i / gradMagnitude)
    (fun _ => 0)
    (fun p i2 => isoVoxelFlux ws (isoKf ws cmap) d (effBC method bc) (fun _ => 0) p i2)
    true .ok) = _
  rw [hrow]

/-- C2: on a workspace in which every voxel resolves to the same phase
with scalar conductivity `k`, the computed effective conductivity row for
any simulation axis `d` is exactly the `d`-th row of `k` times the
identity, hence within the solver tolerance of it, for every axis, side
boundary condition and method. -/
theorem homogeneous_tensor_spec (ws : Workspace) (cmap : IsotropicConductivityMap)
    (k : ℚ) (d : Fin 3) (bc : SideBC) (tol : ℚ) (maxiter : ℕ) (method : Method)
    (hdims : ∀ j, 0 < ws.dims j) (htol : 0 ≤ tol)
    (hom : ∀ p ∈ ws.voxels, cmap.lookup (ws.matrix p) = some k) :
    (compute_thermal_conductivity ws cmap d bc tol maxiter method).map CondResult.row
      = .ok (fun i => if i = d then k else 0)
    ∧ ∀ row, (compute_thermal_conductivity ws cmap d bc tol maxiter method).map
          CondResult.row = .ok row →
        ∀ i, |row i - (if i = d then k else 0)| ≤ tol := by
  have h := compute_homogeneous ws cmap k d bc tol maxiter method hdims htol hom
  constructor
  · rw [h]
    rfl
  · intro row hrow i
    rw [h] at hrow
    have hr : (fun i => if i = d then k else 0) = row := by
      simpa [Except.map] using hrow
    rw [← hr]
    simpa using htol

/-- Witness for C2: a homogeneous 2x2x2 workspace of grayscale 5 with the
single registered phase of conductivity 3 yields the row `3 · e_y`. -/
theorem homogeneous_tensor_spec_witness :
    (compute_thermal_conductivity ⟨fun _ => 2, 1, fun _ => 5⟩ ⟨[⟨0, 255, 3⟩]⟩
        1 .symmetric 0 7 .fv).map CondResult.row
      = .ok (fun i => if i = 1 then 3 else 0) :=
  (homogeneous_tensor_spec ⟨fun _ => 2, 1, fun _ => 5⟩ ⟨[⟨0, 255, 3⟩]⟩ 3 1 .symmetric
    0 7 .fv (by decide) (by decide) (by decide)).1

/-- Witness for C1: on a homogeneous 2x2x2 workspace the row of the
assembled 3x3 tensor for the x axis equals the independent x-direction
call's row. -/
theorem driver_row_spec_witness :
    (compute_thermal_conductivity ⟨fun _ => 2, 1, fun _ => 5⟩ ⟨[⟨0, 255, 3⟩]⟩
        0 .periodic 0 7 .fv).map CondResult.row
      = .ok (fun i => if i = 0 then (3 : ℚ) else 0) := by
  have hM : effectiveConductivityTensor ⟨fun _ => 2, 1, fun _ => 5⟩ ⟨[⟨0, 255, 3⟩]⟩
      .periodic 0 7 .fv = .ok (fun dIdx i => if i = dIdx then (3 : ℚ) else 0) := by
    rw [effectiveConductivityTensor.eq_def,
      compute_homogeneous _ _ 3 0 _ _ _ _ (by decide) (by decide) (by decide),
      compute_homogeneous _ _ 3 1 _ _ _ _ (by decide) (by decide) (by decide),
      compute_homogeneous _ _ 3 2 _ _ _ _ (by decide) (by decide) (by decide)]
    show Except.ok _ = _
    congr 1
    funext dIdx i
    fin_cases dIdx <;> simp
  exact (driver_row_spec ⟨fun _ => 2, 1, fun _ => 5⟩ ⟨[⟨0, 255, 3⟩]⟩ ⟨[]⟩ (fun _ => none)
    .periodic 0 7 .fv).2.2 (fun dIdx i => if i = dIdx then (3 : ℚ) else 0) hM 0

/-- Off-diagonal entries of a scalar tensor vanish. -/
theorem scalarTensor_off (a : ℚ) (j i : Fin 3) (hi : i ∈ Finset.univ.erase j) :
    scalarTensor a j i = 0 := by
  have hne : j ≠ i := (Finset.ne_of_mem_erase hi).symm
  simp [scalarTensor, hne]

/-- With scalar (isotropic) tensors at every voxel, the MPFA face flux
reduces to the 7-point isotropic face flux: the normal part carries the
scalar and every cross term vanishes. -/
theorem anisoFaceFlux_scalar (ws : Workspace) (kf : Pos → ℚ) (d : Fin 3) (bc : SideBC)
    (t : Pos → ℚ) (j : Fin 3) (p : Pos) (f : Face) :
    anisoFaceFlux ws (fun x => scalarTensor (kf x)) d bc t j p f
      = isoFaceFlux ws kf d t j p f := by
  cases f with
  | interior q =>
    simp only [anisoFaceFlux, isoFaceFlux]
    have hz : ∑ i ∈ Finset.univ.erase j,
        arithmeticMean (scalarTensor (kf p) j i) (scalarTensor (kf q) j i)
          * arithmeticMean (totalGrad ws d bc t i p) (totalGrad ws d bc t i q) = 0 :=
      Finset.sum_eq_zero fun i hi => by
        rw [scalarTensor_off (kf p) j i hi, scalarTensor_off (kf q) j i hi]
        simp [arithmeticMean]
    rw [hz]
    simp [scalarTensor]
  | wrap q =>
    simp only [anisoFaceFlux, isoFaceFlux]
    have hz : ∑ i ∈ Finset.univ.erase j,
        arithmeticMean (scalarTensor (kf p) j i) (scalarTensor (kf q) j i)
          * arithmeticMean (totalGrad ws d bc t i p) (totalGrad ws d bc t i q) = 0 :=
      Finset.sum_eq_zero fun i hi => by
        rw [scalarTensor_off (kf p) j i hi, scalarTensor_off (kf q) j i hi]
        simp [arithmeticMean]
    rw [hz]
    simp [scalarTensor]
  | noflux => rfl
  | fixed =>
    simp only [anisoFaceFlux, isoFaceFlux]
    have hz : ∑ i ∈ Finset.univ.erase j,
        scalarTensor (kf p) j i * totalGrad ws d bc t i p = 0 :=
      Finset.sum_eq_zero fun i hi => by
        rw [scalarTensor_off (kf p) j i hi]
        simp
    rw [hz]
    simp [scalarTensor]

/-- With scalar tensors the MPFA residual coincides with the isotropic
residual. -/
theorem anisoResidual_scalar (ws : Workspace) (kf : Pos → ℚ) (d : Fin 3) (bc : SideBC)
    (t : Pos → ℚ) (p : Pos) :
    anisoResidual ws (fun x => scalarTensor (kf x)) d bc t p
      = isoResidual ws kf d bc t p := by
  unfold anisoResidual isoResidual
  exact Finset.sum_congr rfl fun j _ => by rw [anisoFaceFlux_scalar, anisoFaceFlux_scalar]

/-- With scalar tensors the anisotropic per-voxel flux coincides with the
isotropic per-voxel flux. -/
theorem anisoVoxelFlux_scalar (ws : Workspace) (kf : Pos → ℚ) (d : Fin 3) (bc : SideBC)
    (t : Pos → ℚ) (p : Pos) (i : Fin 3) :
    anisoVoxelFlux ws (fun x => scalarTensor (kf x)) d bc t p i
      = isoVoxelFlux ws kf d bc t p i := by
  unfold anisoVoxelFlux isoVoxelFlux
  rw [Finset.sum_eq_single i (fun b _ hb => by simp [scalarTensor, Ne.symm hb])
    fun hmem => absurd (Finset.mem_univ i) hmem]
  simp [scalarTensor]

/-- When the anisotropic map resolves every value to the scalar tensor of
the isotropic map's conductivity, the two driver pipelines coincide
exactly. -/
theorem aniso_iso_compute_eq (ws : Workspace) (cmap : IsotropicConductivityMap)
    (amap : AnisotropicConductivityMap) (ofield : Pos → Option (Fin 3 → ℚ))
    (d : Fin 3) (bc : SideBC) (tol : ℚ) (maxiter : ℕ) (method : Method)
    (hcorr : ∀ (o : Option (Fin 3 → ℚ)) (v : ℤ),
      amap.lookupTensor o v = (cmap.lookup v).map scalarTensor) :
    compute_thermal_conductivity_aniso ws amap ofield d bc tol maxiter method
      = compute_thermal_conductivity ws cmap d bc tol maxiter method := by
  have hKf : anisoKfD ws amap ofield = fun x => scalarTensor (isoKf ws cmap x) := by
    funext x
    rw [anisoKfD, isoKf, hcorr]
    cases cmap.lookup (ws.matrix x) with
    | none =>
      funext i m
      simp [scalarTensor]
    | some a => rfl
  have hres : anisoResidual ws (anisoKfD ws amap ofield) d (effBC method bc)
      = isoResidual ws (isoKf ws cmap) d (effBC method bc) := by
    funext t p
    rw [hKf]
    exact anisoResidual_scalar ws (isoKf ws cmap) d (effBC method bc) t p
  have hsolve : anisoSolve ws amap ofield d bc tol maxiter method
      = isoSolve ws cmap d bc tol maxiter method := by
    rw [anisoSolve, isoSolve, hres]
  have hvalid : (∀ p ∈ ws.voxels, (amap.lookupTensor (ofield p) (ws.matrix p)).isSome)
      ↔ ∀ p ∈ ws.voxels, (cmap.lookup (ws.matrix p)).isSome := by
    refine forall₂_congr fun p _ => ?_
    rw [hcorr]
    cases cmap.lookup (ws.matrix p) <;> simp
  have hflux : (fun p i2 => anisoVoxelFlux ws (anisoKfD ws amap ofield) d (effBC method bc)
        ((isoSolve ws cmap d bc tol maxiter method).field) p i2)
      = fun p i2 => isoVoxelFlux ws (isoKf ws cmap) d (effBC method bc)
          ((isoSolve ws cmap d bc tol maxiter method).field) p i2 := by
    funext p i2
    rw [hKf]
    exact anisoVoxelFlux_scalar ws (isoKf ws cmap) d (effBC method bc) _ p i2
  rw [compute_thermal_conductivity_aniso.eq_def, compute_thermal_conductivity.eq_def,
    hsolve, hflux]
  exact if_congr hvalid rfl rfl

/-- C3: for every workspace and every anisotropic property map whose
along-axis and cross-axis conductivities agree for each phase — so that
every value resolves to the scalar tensor of the corresponding isotropic
map — the anisotropic solver's result equals the isotropic solver's result
exactly, and in particular the tensor rows match within the solver
tolerance. -/
theorem aniso_matches_iso_spec (ws : Workspace) (cmap : IsotropicConductivityMap)
    (amap : AnisotropicConductivityMap) (ofield : Pos → Option (Fin 3 → ℚ))
    (d : Fin 3) (bc : SideBC) (tol : ℚ) (maxiter : ℕ) (method : Method)
    (hcorr : ∀ (o : Option (Fin 3 → ℚ)) (v : ℤ),
      amap.lookupTensor o v = (cmap.lookup v).map scalarTensor) :
    compute_thermal_conductivity_aniso ws amap ofield d bc tol maxiter method
      = compute_thermal_conductivity ws cmap d bc tol maxiter method
    ∧ (0 ≤ tol → ∀ rowA rowI,
        (compute_thermal_conductivity_aniso ws amap ofield d bc tol maxiter method).map
            CondResult.row = .ok rowA →
        (compute_thermal_conductivity ws cmap d bc tol maxiter method).map
            CondResult.row = .ok rowI →
        ∀ i, |rowA i - rowI i| ≤ tol) := by
  have heq := aniso_iso_compute_eq ws cmap amap ofield d bc tol maxiter method hcorr
  refine ⟨heq, fun htol rowA rowI hA hI i => ?_⟩
  rw [heq] at hA
  rw [hA] at hI
  have hri : rowA = rowI := by simpa using hI
  rw [hri, sub_self, abs_zero]
  exact htol

/-- Witness for C3: the oriented phase with along = cross = 3 over the
full grayscale range matches the isotropic map with conductivity 3, and
the two drivers coincide on a concrete 2x2x2 workspace. -/
theorem aniso_matches_iso_spec_witness :
    compute_thermal_conductivity_aniso ⟨fun _ => 2, 1, fun _ => 5⟩
        ⟨[.toOrient 0 255 3 3]⟩ (fun _ => some fun _ => 1 / 2) 0 .periodic 1 7 .fv
      = compute_thermal_conductivity ⟨fun _ => 2, 1, fun _ => 5⟩ ⟨[⟨0, 255, 3⟩]⟩
          0 .periodic 1 7 .fv := by
  refine (aniso_matches_iso_spec ⟨fun _ => 2, 1, fun _ => 5⟩ ⟨[⟨0, 255, 3⟩]⟩
    ⟨[.toOrient 0 255 3 3]⟩ (fun _ => some fun _ => 1 / 2) 0 .periodic 1 7 .fv ?_).1
  intro o v
  by_cases h : (0 : ℤ) ≤ v ∧ v ≤ 255
  · have hb : (decide ((0 : ℤ) ≤ v) && decide (v ≤ 255)) = true := by
      simp [h.1, h.2]
    simp only [AnisotropicConductivityMap.lookupTensor, IsotropicConductivityMap.lookup,
      List.find?, AnisoEntry.lo, AnisoEntry.hi, hb, Option.map_some']
    cases o with
    | none =>
      refine congrArg some ?_
      funext i m
      simp only [AnisoEntry.tensorAt, scalarTensor]
      split
      · split <;> rfl
      · rfl
    | some u =>
      refine congrArg some ?_
      funext i m
      simp only [AnisoEntry.tensorAt, orientedTensor, scalarTensor]
      split <;> ring
  · have hb : (decide ((0 : ℤ) ≤ v) && decide (v ≤ 255)) = false := by
      rcases not_and_or.mp h with h1 | h1 <;> simp [h1]
    simp [AnisotropicConductivityMap.lookupTensor, IsotropicConductivityMap.lookup,
      List.find?, AnisoEntry.lo, AnisoEntry.hi, hb]

/-- C7: for every workspace, cutoff range and smoothing scales, the
orientation the estimator produces at a voxel inside the cutoff is of unit
length (it is a unit eigenvector of the smallest eigenvalue of the
smoothed structure tensor), and voxels outside the cutoff carry no
orientation. -/
theorem orientation_unit_length (ws : Workspace) (cutoff : ℤ × ℤ) (sigma rho : ℝ)
    (p : Pos) :
    (inCutoff ws cutoff p →
      ∃ v, compute_orientation_st ws cutoff sigma rho p = some v ∧ ‖v‖ = 1)
    ∧ (¬ inCutoff ws cutoff p → compute_orientation_st ws cutoff sigma rho p = none) := by
  constructor
  · intro h
    rw [compute_orientation_st.eq_def, if_pos h]
    exact ⟨_, rfl,
      ((smoothedStructureTensor_isHermitian ws cutoff sigma rho p).eigenvectorBasis).orthonormal.1 _⟩
  · intro h
    rw [compute_orientation_st.eq_def, if_neg h]

/-- Witness for C7: on a single-voxel workspace of value 5 with cutoff
0..10, the voxel's orientation exists and is unit length, and a position
outside the workspace carries no orientation. -/
theorem orientation_unit_length_witness :
    (∃ v, compute_orientation_st ⟨fun _ => 1, 1, fun _ => 5⟩ (0, 10) 1 1 (fun _ => 0)
        = some v ∧ ‖v‖ = 1)
    ∧ compute_orientation_st ⟨fun _ => 1, 1, fun _ => 5⟩ (0, 10) 1 1 (fun _ => 7)
        = none :=
  ⟨(orientation_unit_length ⟨fun _ => 1, 1, fun _ => 5⟩ (0, 10) 1 1 (fun _ => 0)).1
      (by decide),
    (orientation_unit_length ⟨fun _ => 1, 1, fun _ => 5⟩ (0, 10) 1 1 (fun _ => 7)).2
      (by decide)⟩
